import Mathlib

/-!
Verification of the toktrie control core: a shallow embedding of the
tokenizer environment (src/tiktoken/src/lib.rs), the controller ABI types
(src/aici_abi/src/lib.rs), and the spec-described trie tokenization,
variable store, result validation and bias vector, together with proofs of
the documented properties.
-/

namespace Toktrie

/-- Bytes are modelled as `Fin 256`, matching Rust `u8`. -/
abbrev Byte := Fin 256

/-- Model of `TokTrie::SPECIAL_TOKEN_PREFIX_BYTE` (0xFF), the reserved
marker byte that flags special tokens inside vocabulary entries. -/
def ffByte : Byte := 255

/-- The byte value of the opening bracket `<` used in bracketed
special-token names (Rust writes it as `'<' as u8`). -/
def ltByte : Byte := 60

/-- The byte value of the closing bracket `>` (Rust `'>' as u8`). -/
def gtByte : Byte := 62

/-- Model of `Iterator::position` on a byte slice: the index of the first
occurrence of `a`, if any. -/
def firstIdxOf [DecidableEq α] (a : α) : List α → Option Nat
  | [] => none
  | x :: xs => if x = a then some 0 else (firstIdxOf a xs).map (fun n => n + 1)

/-- Concatenation of the byte representations (vocabulary entries) of a
token-id sequence; out-of-range ids decode to the empty entry. -/
def decodeTokens (vocab : List (List Byte)) (ids : List Nat) : List Byte :=
  (ids.map (fun i => vocab.getD i [])).flatten

/-- Modelled from the spec: the greedy trie step of §4.1 ("walks the trie
greedily, preferring the longest matching token at each position") of the
`TokTrie` in toktree.rs, which is not under src/.  Returns a longest
non-empty vocabulary entry that the input starts with, together with its
token id; the matched entry is returned head/tail split so it is non-empty
by construction.  `none` means the trie cannot resolve this position. -/
def bestMatch (vocab : List (List Byte)) (s : List Byte) :
    Option (Nat × Byte × List Byte) :=
  match vocab with
  | [] => none
  | tok :: rest =>
    let r := bestMatch rest s
    match tok with
    | [] => r.map (fun q => (q.1 + 1, q.2))
    | c :: cs =>
      if s.take (c :: cs).length = c :: cs then
        match r with
        | some (j, d, ds) =>
          if (c :: cs).length < (d :: ds).length then some (j + 1, d, ds)
          else some (0, c, cs)
        | none => some (0, c, cs)
      else r.map (fun q => (q.1 + 1, q.2))

/-- Modelled from the spec: length of the remainder of a maximal span the
trie cannot resolve (§4.1), counted from the byte after an unresolved
position. -/
def unresolvedTail (vocab : List (List Byte)) : List Byte → Nat
  | [] => 0
  | c :: rest =>
    match bestMatch vocab (c :: rest) with
    | some _ => 0
    | none => unresolvedTail vocab rest + 1

/-- Modelled from the spec: `TokTrie::tokenize_with_greedy_fallback` from
toktree.rs (not under src/), which `tokenize_bytes` in
src/tiktoken/src/lib.rs delegates to.  Per §4.1 it walks the trie
greedily, preferring the longest matching token at each position, and for
any maximal span the trie cannot resolve it delegates that span to the
external encoder `fb` and splices its output back in. -/
def tokenizeWithGreedyFallback (vocab : List (List Byte))
    (fb : List Byte → List Nat) (s : List Byte) : List Nat :=
  if hs : s = [] then []
  else
    match bestMatch vocab s with
    | some (id, c, cs) =>
      id :: tokenizeWithGreedyFallback vocab fb (s.drop (c :: cs).length)
    | none =>
      let k := unresolvedTail vocab s.tail + 1
      fb (s.take k) ++ tokenizeWithGreedyFallback vocab fb (s.drop k)
termination_by s.length
decreasing_by
  · cases s with
    | nil => exact absurd rfl hs
    | cons a as => simp [List.length_drop]; omega
  · cases s with
    | nil => exact absurd rfl hs
    | cons a as => simp [List.length_drop]; omega

/-- The tokenizer-environment surface used by `tokenize_bytes_prefix` and
`tokenize_special` in src/tiktoken/src/lib.rs: `lookupSpecial` is the
composition of `String::from_utf8_lossy` with the `special_tokens` map
lookup (an arbitrary function from raw name bytes to token ids), and
`tokBytes` is `TikTokenEnv::tokenize_bytes` viewed as an opaque function,
exactly as the source calls it. -/
structure TokEnvM where
  lookupSpecial : List Byte → Option Nat
  tokBytes : List Byte → List Nat

/-- Shallow embedding of `TikTokenEnv::tokenize_bytes_prefix` from
src/tiktoken/src/lib.rs: scan for the reserved marker byte; text before it
goes through `tokBytes` (when non-empty); the marker is skipped; when at
least 4 bytes follow the marker and the first is `<`, the first `>` within
the 100 bytes after the marker delimits a candidate special-token name,
which is substituted by its registered id when the lookup succeeds;
otherwise scanning simply continues after the marker. -/
def tokenizeBytesWithMarkers (env : TokEnvM) (s : List Byte) : List Nat :=
  match hm : firstIdxOf ffByte s with
  | none => if s = [] then [] else env.tokBytes s
  | some k =>
    (if k = 0 then [] else env.tokBytes (s.take k)) ++
    (let tail := s.drop (k + 1)
     if 3 < tail.length ∧ tail.headD ffByte = ltByte then
       match firstIdxOf gtByte (tail.take 100) with
       | some j =>
         match env.lookupSpecial (tail.take (j + 1)) with
         | some id => id :: tokenizeBytesWithMarkers env (tail.drop (j + 1))
         | none => tokenizeBytesWithMarkers env tail
       | none => tokenizeBytesWithMarkers env tail
     else tokenizeBytesWithMarkers env tail)
termination_by s.length
decreasing_by
  all_goals cases s with
  | nil => simp [firstIdxOf] at hm
  | cons a as => simp [List.length_drop]; omega

/-- Shallow embedding of `TikTokenEnv::tokenize_special` from
src/tiktoken/src/lib.rs: the registered id if the name is a registered
special token, otherwise `tokenize_bytes` on the name's raw bytes. -/
def tokenizeSpecial (env : TokEnvM) (name : List Byte) : List Nat :=
  match env.lookupSpecial name with
  | some id => [id]
  | none => env.tokBytes name

/-- Model of `Vec::resize(n, x)`: truncate to `n` elements or pad with `x`
up to `n` elements. -/
def listResize (l : List α) (n : Nat) (x : α) : List α :=
  if l.length ≤ n then l ++ List.replicate (n - l.length) x else l.take n

/-- The special-token installation loop of `TikTokenEnv::new`: for each
`(name, id)` pair, `tokens[id] = SPECIAL_TOKEN_PREFIX_BYTE ++ name`. -/
def installSpecials (l : List (List Byte × Nat)) (ts : List (List Byte)) :
    List (List Byte) :=
  match l with
  | [] => ts
  | p :: rest => installSpecials rest (ts.set p.2 (ffByte :: p.1))

/-- Model of `config.special_tokens.values().max().unwrap_or(&0)`. -/
def maxSpecId (l : List (List Byte × Nat)) : Nat :=
  (l.map (fun p => p.2)).foldl Nat.max 0

/-- Shallow embedding of `TikTokenConfig` from src/tiktoken/src/lib.rs.
Special-token names are carried as raw byte strings; the `HashMap` is
modelled as an association list. -/
structure TikTokenConfig where
  eos_token : Nat
  vocab_size_override : Option Nat
  special_tokens : List (List Byte × Nat)

/-- The part of `TikTokenEnv` the claims observe: the vocabulary handed to
`TokTrie::from`, the stop token, and the special-token table. -/
structure TikTokenEnvM where
  vocab : List (List Byte)
  eos : Nat
  special_tokens : List (List Byte × Nat)

/-- Shallow embedding of `TikTokenEnv::new` from src/tiktoken/src/lib.rs,
applied to the base vocabulary `tokens0` obtained by decoding each id of
the underlying tiktoken tokenizer.  The final stop-token range check is
modelled from the spec: trie construction (`TokTrie::from` in toktree.rs,
not under src/) rejects construction if the stop-token id is out of range
(§4.1, fatal at startup). -/
def tikTokenEnvNew (tokens0 : List (List Byte)) (config : TikTokenConfig) :
    Except String TikTokenEnvM :=
  let maxSpec := maxSpecId config.special_tokens
  let n1 := if tokens0.length ≤ maxSpec then maxSpec + 1 else tokens0.length
  let build : Nat → Except String TikTokenEnvM := fun n =>
    let toks := installSpecials config.special_tokens (listResize tokens0 n [])
    if config.eos_token < n then
      Except.ok { vocab := toks, eos := config.eos_token,
                  special_tokens := config.special_tokens }
    else Except.error "stop token id out of range"
  match config.vocab_size_override with
  | some v =>
    if v < n1 then Except.error "vocab_size_override too low" else build v
  | none => build n1

/-- The size of the vocabulary `TikTokenEnv::new` attempts to construct:
the override when given, otherwise the base size extended to cover the
largest special-token id. -/
def finalVocabSize (tokens0 : List (List Byte)) (config : TikTokenConfig) : Nat :=
  let maxSpec := maxSpecId config.special_tokens
  let n1 := if tokens0.length ≤ maxSpec then maxSpec + 1 else tokens0.length
  match config.vocab_size_override with
  | some v => v
  | none => n1

/-- True exactly on `Except.error`. -/
def isErrE (r : Except String TikTokenEnvM) : Bool :=
  match r with
  | .error _ => true
  | .ok _ => false

/-- True exactly on `Except.ok`. -/
def isOkE (r : Except String TikTokenEnvM) : Bool :=
  match r with
  | .error _ => false
  | .ok _ => true

/-- The vocabulary of a successfully constructed environment (empty on
construction failure). -/
def envVocab (r : Except String TikTokenEnvM) : List (List Byte) :=
  match r with
  | .ok e => e.vocab
  | .error _ => []

/-- Shallow embedding of `StorageOp` from src/aici_abi/src/lib.rs. -/
inductive StorageOp where
  | Set
  | Append
deriving DecidableEq

/-- Shallow embedding of `StorageResp` from src/aici_abi/src/lib.rs. -/
inductive StorageResp where
  | ReadVar (version : Nat) (value : List Byte)
  | VariableMissing
  | WriteVar (version : Nat)
deriving DecidableEq

/-- The variable store as an association list from names to
(version, value) pairs; the most recent binding for a name is first. -/
abbrev VarStore := List (String × Nat × List Byte)

/-- Current (version, value) of a variable, if it has ever been written. -/
def lookupVar (st : VarStore) (name : String) : Option (Nat × List Byte) :=
  match st with
  | [] => none
  | (n, pv) :: rest => if n = name then some pv else lookupVar rest name

/-- Remove every binding of `name` (used when re-binding it). -/
def eraseVar (st : VarStore) (name : String) : VarStore :=
  match st with
  | [] => []
  | (n, pv) :: rest =>
    if n = name then eraseVar rest name else (n, pv) :: eraseVar rest name

/-- Re-bind `name` to a fresh (version, value) pair. -/
def updateVar (st : VarStore) (name : String) (ver : Nat) (val : List Byte) :
    VarStore :=
  (name, ver, val) :: eraseVar st name

/-- Modelled from the spec: the effect of a write op on the stored value
(§4.4) — `Set` replaces it, `Append` concatenates onto it, treating a
missing value as empty. -/
def applyOpVal (op : StorageOp) (old : Option (List Byte)) (v : List Byte) :
    List Byte :=
  match op with
  | .Set => v
  | .Append => old.getD [] ++ v

/-- Modelled from the spec: the `ReadVar` handling of the VariableStore
(§4.4), which is host-side and not under src/ — `StorageCmd` in
src/aici_abi/src/lib.rs documents the same contract. -/
def readVar (st : VarStore) (name : String) : StorageResp :=
  match lookupVar st name with
  | some (ver, val) => .ReadVar ver val
  | none => .VariableMissing

/-- Modelled from the spec: the `WriteVar` handling of the VariableStore
(§4.4), which is host-side and not under src/.  An unconditional write
always succeeds; a conditional write succeeds iff the stored version
equals the expected one; version numbers start at 1 and increase by one on
every successful write; a failed conditional write leaves the store
unchanged and answers with the current read result. -/
def writeVar (st : VarStore) (name : String) (value : List Byte)
    (op : StorageOp) (whenVersionIs : Option Nat) : VarStore × StorageResp :=
  let cur := lookupVar st name
  let versionOk : Bool :=
    match whenVersionIs with
    | none => true
    | some v =>
      match cur with
      | some (ver, _) => decide (ver = v)
      | none => false
  if versionOk then
    let newVer := (match cur with | some (ver, _) => ver | none => 0) + 1
    (updateVar st name newVer (applyOpVal op (cur.map (fun q => q.2)) value),
     .WriteVar newVer)
  else (st, readVar st name)

/-- Shallow embedding of `ProcessResult` from src/aici_abi/src/lib.rs. -/
inductive ProcessResult where
  | Stop
  | SampleWithBias
  | Splice (backtrack : Nat) (ff_tokens : List Nat)
  | Fork (num_children : Nat)
  | WaitAll (vars : List String) (finished : List Nat)
deriving DecidableEq

/-- The sequence-scoped error kinds of §7 that the claims mention. -/
inductive ControllerError where
  | InvalidResult
deriving DecidableEq

/-- Modelled from the spec: the validity check every controller decision
passes before being handed to the host (§4.3, §7) — `Splice` with
`backtrack == 0` and empty `ff_tokens` and `Fork` with `num_children == 0`
are rejected with `InvalidResult`; this check is host-side and not under
src/ (the `ProcessResult::Splice` doc comment in src/aici_abi/src/lib.rs
states the same rule). -/
def validateResult (r : ProcessResult) : Except ControllerError ProcessResult :=
  match r with
  | .Splice b ff => if b = 0 ∧ ff = [] then .error .InvalidResult else .ok r
  | .Fork n => if n = 0 then .error .InvalidResult else .ok r
  | other => .ok other

/-- Modelled from the spec: `SimpleVob` from svob.rs (not under src/), the
allow/disallow bitmap over token ids of §4.2. -/
structure SimpleVob where
  bits : List Bool
deriving DecidableEq

/-- Modelled from the spec: `SimpleVob::new()` — an empty bitmap. -/
def SimpleVob.new : SimpleVob := ⟨[]⟩

/-- Modelled from the spec: `SimpleVob::resize(n)` sets the capacity to
`n` with every bit false (§4.2). -/
def SimpleVob.resize (_v : SimpleVob) (n : Nat) : SimpleVob :=
  ⟨List.replicate n false⟩

/-- Shallow embedding of `AiciVmHelper` from src/aici_abi/src/lib.rs; the
host-built trie is represented by its vocabulary size. -/
structure AiciVmHelper where
  allowed_tokens : SimpleVob
  trieVocabSize : Nat

/-- Shallow embedding of `AiciVmHelper::new` from src/aici_abi/src/lib.rs:
a fresh bitmap resized to `trie.vocab_size() + 1`. -/
def AiciVmHelper.new (vocabSize : Nat) : AiciVmHelper :=
  { allowed_tokens := SimpleVob.new.resize (vocabSize + 1),
    trieVocabSize := vocabSize }

/-- A concrete single-byte vocabulary covering every byte value, used to
instantiate the abstract encoder in witnesses. -/
def vocab256 : List (List Byte) := (List.finRange 256).map (fun b => [b])

/-- The byte-identity encoder for `vocab256`: every byte is its own
token. -/
def fb256 : List Byte → List Nat := fun t => t.map Fin.val

/-- A concrete tokenizer environment with no registered special tokens
and the byte-identity ordinary tokenizer, for witnesses. -/
def envNoSpecials : TokEnvM :=
  { lookupSpecial := fun _ => none, tokBytes := fun t => t.map Fin.val }

/-- A concrete tokenizer environment registering the three-byte bracketed
name `<a>` with id 7, for witnesses. -/
def envShortName : TokEnvM :=
  { lookupSpecial := fun n =>
      if n = [(60 : Byte), (97 : Byte), (62 : Byte)] then some 7 else none,
    tokBytes := fun t => t.map Fin.val }

end Toktrie

namespace Toktrie

theorem decodeTokens_nil (vocab : List (List Byte)) :
    decodeTokens vocab [] = [] := rfl

theorem decodeTokens_cons (vocab : List (List Byte)) (i : Nat) (ids : List Nat) :
    decodeTokens vocab (i :: ids) = vocab.getD i [] ++ decodeTokens vocab ids := by
  simp [decodeTokens]

theorem decodeTokens_append (vocab : List (List Byte)) (xs ys : List Nat) :
    decodeTokens vocab (xs ++ ys) =
      decodeTokens vocab xs ++ decodeTokens vocab ys := by
  simp [decodeTokens]

theorem bestMatch_sound (vocab : List (List Byte)) (s : List Byte)
    (id : Nat) (c : Byte) (cs : List Byte)
    (h : bestMatch vocab s = some (id, c, cs)) :
    vocab.getD id [] = c :: cs ∧ s.take (c :: cs).length = c :: cs := by
  induction vocab generalizing id with
  | nil => simp [bestMatch] at h
  | cons tok rest ih =>
    rw [bestMatch.eq_def] at h
    cases tok with
    | nil =>
      simp only [Option.map_eq_some'] at h
      obtain ⟨⟨j, d, ds⟩, hr, hq⟩ := h
      cases hq
      exact ⟨(ih j hr).1, (ih j hr).2⟩
    | cons t ts =>
      simp only [] at h
      by_cases hcond : s.take (t :: ts).length = t :: ts
      · rw [if_pos hcond] at h
        cases hr : bestMatch rest s with
        | none =>
          rw [hr] at h
          cases h
          exact ⟨rfl, hcond⟩
        | some q =>
          obtain ⟨j, d, ds⟩ := q
          rw [hr] at h
          simp only [] at h
          by_cases hlt : (t :: ts).length < (d :: ds).length
          · rw [if_pos hlt] at h
            cases h
            exact ⟨(ih j hr).1, (ih j hr).2⟩
          · rw [if_neg hlt] at h
            cases h
            exact ⟨rfl, hcond⟩
      · rw [if_neg hcond] at h
        simp only [Option.map_eq_some'] at h
        obtain ⟨⟨j, d, ds⟩, hr, hq⟩ := h
        cases hq
        exact ⟨(ih j hr).1, (ih j hr).2⟩

theorem gft_roundtrip_aux (vocab : List (List Byte)) (fb : List Byte → List Nat)
    (hfb : ∀ t, t ≠ [] → ffByte ∉ t → decodeTokens vocab (fb t) = t) :
    ∀ n (s : List Byte), s.length ≤ n → ffByte ∉ s →
      decodeTokens vocab (tokenizeWithGreedyFallback vocab fb s) = s := by
  intro n
  induction n with
  | zero =>
    intro s hle hff
    have hs : s = [] := List.length_eq_zero.mp (Nat.le_zero.mp hle)
    subst hs
    rw [tokenizeWithGreedyFallback]
    simp [decodeTokens]
  | succ n ih =>
    intro s hle hff
    by_cases hs : s = []
    · subst hs
      rw [tokenizeWithGreedyFallback]
      simp [decodeTokens]
    · rw [tokenizeWithGreedyFallback, dif_neg hs]
      cases hm : bestMatch vocab s with
      | some q =>
        obtain ⟨id, c, cs⟩ := q
        obtain ⟨hget, htake⟩ := bestMatch_sound vocab s id c cs hm
        rw [decodeTokens_cons, hget]
        have hlen : (s.drop (c :: cs).length).length ≤ n := by
          rw [List.length_drop]
          have : 1 ≤ (c :: cs).length := by simp
          omega
        rw [ih (s.drop (c :: cs).length) hlen
          (fun hx => hff (List.drop_subset _ _ hx))]
        have hsplit := List.take_append_drop (c :: cs).length s
        rw [htake] at hsplit
        exact hsplit
      | none =>
        have htk : s.take (unresolvedTail vocab s.tail + 1) ≠ [] := by
          cases s with
          | nil => exact absurd rfl hs
          | cons a as => simp
        have hlen : (s.drop (unresolvedTail vocab s.tail + 1)).length ≤ n := by
          rw [List.length_drop]
          have : 1 ≤ s.length := List.length_pos.mpr hs
          omega
        rw [decodeTokens_append,
          hfb (s.take (unresolvedTail vocab s.tail + 1)) htk
            (fun hx => hff (List.take_subset _ _ hx)),
          ih (s.drop (unresolvedTail vocab s.tail + 1)) hlen
            (fun hx => hff (List.drop_subset _ _ hx))]
        exact List.take_append_drop _ s

/-- C1: for every byte string containing no reserved marker byte,
concatenating the vocabulary entries of the token ids returned by
`tokenize_bytes` (greedy trie walk with external-encoder fallback, §4.1)
yields exactly the input, provided the external encoder itself round-trips
on the marker-free spans it is handed. -/
theorem tokenize_bytes_roundtrip (vocab : List (List Byte))
    (fb : List Byte → List Nat) (s : List Byte) (hff : ffByte ∉ s)
    (hfb : ∀ t, t ≠ [] → ffByte ∉ t → decodeTokens vocab (fb t) = t) :
    decodeTokens vocab (tokenizeWithGreedyFallback vocab fb s) = s :=
  gft_roundtrip_aux vocab fb hfb s.length s le_rfl hff

theorem vocab256_getD (c : Byte) : vocab256.getD c.val [] = [c] := by
  have hlt : c.val < vocab256.length := by simp [vocab256]
  rw [List.getD_eq_getElem _ _ hlt]
  simp only [vocab256, List.getElem_map, List.getElem_finRange]
  congr 1

theorem decode_fb256 (t : List Byte) : decodeTokens vocab256 (fb256 t) = t := by
  induction t with
  | nil => rfl
  | cons c cs ih =>
    show decodeTokens vocab256 (c.val :: cs.map Fin.val) = c :: cs
    rw [decodeTokens_cons, vocab256_getD]
    rw [show (cs.map Fin.val) = fb256 cs from rfl, ih]
    rfl

/-- Witness for C1 at the concrete byte-identity encoder and the input
`[99]`. -/
theorem tokenize_bytes_roundtrip_witness :
    decodeTokens vocab256
        (tokenizeWithGreedyFallback vocab256 fb256 [(99 : Byte)]) =
      [(99 : Byte)] :=
  tokenize_bytes_roundtrip vocab256 fb256 [(99 : Byte)] (by decide)
    (fun t _ _ => decode_fb256 t)

theorem firstIdxOf_eq_none [DecidableEq α] (a : α) (l : List α) (h : a ∉ l) :
    firstIdxOf a l = none := by
  induction l with
  | nil => rfl
  | cons x xs ih =>
    have hxa : ¬ x = a := fun hxa => h (hxa ▸ List.mem_cons_self x xs)
    rw [firstIdxOf, if_neg hxa, ih (fun hm => h (List.mem_cons_of_mem x hm))]
    rfl

theorem firstIdxOf_append [DecidableEq α] (a : α) (l r : List α) (h : a ∉ l) :
    firstIdxOf a (l ++ a :: r) = some l.length := by
  induction l with
  | nil => simp [firstIdxOf]
  | cons x xs ih =>
    have hxa : ¬ x = a := fun hxa => h (hxa ▸ List.mem_cons_self x xs)
    rw [List.cons_append, firstIdxOf, if_neg hxa,
      ih (fun hm => h (List.mem_cons_of_mem x hm))]
    rfl

theorem tbp_nil (env : TokEnvM) : tokenizeBytesWithMarkers env [] = [] := by
  rw [tokenizeBytesWithMarkers]
  rfl

theorem tbp_no_ff (env : TokEnvM) (s : List Byte) (hs : s ≠ [])
    (hff : ffByte ∉ s) : tokenizeBytesWithMarkers env s = env.tokBytes s := by
  rw [tokenizeBytesWithMarkers.eq_def]
  split
  · rw [if_neg hs]
  · rename_i k hm
    rw [firstIdxOf_eq_none ffByte s hff] at hm
    cases hm

theorem tbp_skip_marker (env : TokEnvM) (a b : List Byte) (hffa : ffByte ∉ a)
    (hskip : ¬ 3 < b.length ∨ b.headD ffByte ≠ ltByte ∨
      (∀ j, firstIdxOf gtByte (b.take 100) = some j →
        env.lookupSpecial (b.take (j + 1)) = none)) :
    tokenizeBytesWithMarkers env (a ++ ffByte :: b) =
      (if a = [] then [] else env.tokBytes a) ++
        tokenizeBytesWithMarkers env b := by
  rw [tokenizeBytesWithMarkers.eq_def]
  split
  · rename_i hm
    rw [firstIdxOf_append ffByte a b hffa] at hm
    cases hm
  · rename_i k hm
    rw [firstIdxOf_append ffByte a b hffa] at hm
    cases hm
    have hdrop : (a ++ ffByte :: b).drop (a.length + 1) = b := by
      have h1 : a ++ ffByte :: b = (a ++ [ffByte]) ++ b := by simp
      have h2 : a.length + 1 = (a ++ [ffByte]).length := by simp
      rw [h1, h2, List.drop_left]
    have htake : (a ++ ffByte :: b).take a.length = a := List.take_left a _
    rw [hdrop, htake]
    have hhead : (if a.length = 0 then [] else env.tokBytes a) =
        (if a = [] then [] else env.tokBytes a) := by
      by_cases ha : a = []
      · subst ha; rfl
      · rw [if_neg ha, if_neg (fun h0 => ha (List.length_eq_zero.mp h0))]
    rw [hhead]
    congr 1
    by_cases h4 : 3 < b.length ∧ b.headD ffByte = ltByte
    · rw [if_pos h4]
      rcases hskip with h | h | h
      · exact absurd h4.1 h
      · exact absurd h4.2 h
      · cases hj : firstIdxOf gtByte (b.take 100) with
        | none => rfl
        | some j =>
          have hl := h j hj
          simp only [hl]
    · rw [if_neg h4]

/-- C8: on a byte string containing no reserved marker byte,
`tokenize_bytes_prefix` returns exactly the token-id sequence of
`tokenize_bytes` (the greedy trie walk with external-encoder fallback that
`TikTokenEnv` wires in). -/
theorem tbp_agrees_on_marker_free (L : List Byte → Option Nat)
    (vocab : List (List Byte)) (fb : List Byte → List Nat) (s : List Byte)
    (hff : ffByte ∉ s) :
    tokenizeBytesWithMarkers ⟨L, tokenizeWithGreedyFallback vocab fb⟩ s =
      tokenizeWithGreedyFallback vocab fb s := by
  by_cases hs : s = []
  · subst hs
    rw [tbp_nil, tokenizeWithGreedyFallback]
    simp
  · exact tbp_no_ff _ s hs hff

/-- Witness for C8 at a concrete environment and the marker-free input
`[97]`. -/
theorem tbp_agrees_on_marker_free_witness :
    tokenizeBytesWithMarkers
        ⟨fun _ => none, tokenizeWithGreedyFallback vocab256 fb256⟩
        [(97 : Byte)] =
      tokenizeWithGreedyFallback vocab256 fb256 [(97 : Byte)] :=
  tbp_agrees_on_marker_free (fun _ => none) vocab256 fb256 [(97 : Byte)]
    (by decide)

/-- C4: when a reserved marker byte occurs but no bracketed name found in
the lookahead window resolves to a registered special token, the marker is
silently skipped and the bytes after it are still tokenized as ordinary
text through `tokenize_bytes` — the marker-introduced span is not
dropped. -/
theorem tbp_unresolved_marker_skipped (env : TokEnvM) (a b : List Byte)
    (hffa : ffByte ∉ a) (hffb : ffByte ∉ b) (hb : b ≠ [])
    (hnosub : ∀ j, firstIdxOf gtByte (b.take 100) = some j →
      env.lookupSpecial (b.take (j + 1)) = none) :
    tokenizeBytesWithMarkers env (a ++ ffByte :: b) =
      (if a = [] then [] else env.tokBytes a) ++ env.tokBytes b := by
  rw [tbp_skip_marker env a b hffa (Or.inr (Or.inr hnosub)),
    tbp_no_ff env b hb hffb]

/-- Witness for C4: input `"a" ++ marker ++ "<a>"` with an empty
special-token table — the bracketed name is found but not registered, the
marker is skipped, and both spans go through ordinary tokenization. -/
theorem tbp_unresolved_marker_skipped_witness :
    tokenizeBytesWithMarkers envNoSpecials
        ([(97 : Byte)] ++ ffByte :: [(60 : Byte), (97 : Byte), (62 : Byte)]) =
      [97, 60, 97, 62] := by
  have h := tbp_unresolved_marker_skipped envNoSpecials [(97 : Byte)]
    [(60 : Byte), (97 : Byte), (62 : Byte)] (by decide) (by decide)
    (by decide) (fun j hj => rfl)
  simpa [envNoSpecials] using h

/-- C10: the bounded-lookahead guard — after a marker, when fewer than 4
bytes remain (e.g. a registered 3-byte bracketed name at the very end of
the input) or no `>` occurs within the 100-byte window, no substitution
happens and the remaining bytes are tokenized as ordinary text, even for
a registered name. -/
theorem tbp_lookahead_window (env : TokEnvM) (a b : List Byte) (id : Nat)
    (hffa : ffByte ∉ a) (hffb : ffByte ∉ b) (hb : b ≠ [])
    (hreg : env.lookupSpecial b = some id)
    (hwin : b.length ≤ 3 ∨ firstIdxOf gtByte (b.take 100) = none) :
    tokenizeBytesWithMarkers env (a ++ ffByte :: b) =
      (if a = [] then [] else env.tokBytes a) ++ env.tokBytes b := by
  have hskip : ¬ 3 < b.length ∨ b.headD ffByte ≠ ltByte ∨
      (∀ j, firstIdxOf gtByte (b.take 100) = some j →
        env.lookupSpecial (b.take (j + 1)) = none) := by
    rcases hwin with h | h
    · exact Or.inl (by omega)
    · exact Or.inr (Or.inr (fun j hj => by rw [h] at hj; cases hj))
  rw [tbp_skip_marker env a b hffa hskip, tbp_no_ff env b hb hffb]

/-- Witness for C10: the registered 3-byte name `<a>` sits directly after
the marker at the very end of the input; its id 7 is not substituted and
the name's bytes are tokenized as ordinary text. -/
theorem tbp_lookahead_window_witness :
    tokenizeBytesWithMarkers envShortName
        ([] ++ ffByte :: [(60 : Byte), (97 : Byte), (62 : Byte)]) =
      [60, 97, 62] := by
  have h := tbp_lookahead_window envShortName []
    [(60 : Byte), (97 : Byte), (62 : Byte)] 7 (by decide) (by decide)
    (by decide) rfl (Or.inl (by decide))
  simpa [envShortName] using h

/-- C5: `tokenize_special` returns the one registered id when the name is
a registered special token, and otherwise tokenizes the name's raw bytes
as ordinary text via `tokenize_bytes` — it never rejects. -/
theorem tokenize_special_spec (env : TokEnvM) (name : List Byte) :
    (∀ id, env.lookupSpecial name = some id →
      tokenizeSpecial env name = [id]) ∧
    (env.lookupSpecial name = none →
      tokenizeSpecial env name = env.tokBytes name) := by
  constructor
  · intro id h
    simp [tokenizeSpecial, h]
  · intro h
    simp [tokenizeSpecial, h]

/-- Witness for C5: the registered name `<a>` yields its id `7`, and an
unregistered name goes through ordinary tokenization. -/
theorem tokenize_special_spec_witness :
    tokenizeSpecial envShortName [(60 : Byte), (97 : Byte), (62 : Byte)] =
        [7] ∧
    tokenizeSpecial envShortName [(98 : Byte)] =
        envShortName.tokBytes [(98 : Byte)] :=
  ⟨(tokenize_special_spec envShortName _).1 7 rfl,
   (tokenize_special_spec envShortName _).2 rfl⟩

/-- C6: a `Splice` decision is rejected with `InvalidResult` exactly when
`backtrack` is zero and `ff_tokens` is empty. -/
theorem splice_invalid_iff (b : Nat) (ff : List Nat) :
    validateResult (.Splice b ff) = .error .InvalidResult ↔
      b = 0 ∧ ff = [] := by
  constructor
  · intro h
    by_cases hc : b = 0 ∧ ff = []
    · exact hc
    · rw [validateResult, if_neg hc] at h
      cases h
  · intro hc
    rw [validateResult, if_pos hc]

/-- Witness for C6 at the concrete decision `Splice 0 []`. -/
theorem splice_invalid_witness :
    validateResult (.Splice 0 []) = .error .InvalidResult :=
  (splice_invalid_iff 0 []).mpr ⟨rfl, rfl⟩

theorem getD_replicate (n : Nat) (i : Nat) (a : α) :
    (List.replicate n a).getD i a = a := by
  induction n generalizing i with
  | zero => rfl
  | succ n ih =>
    cases i with
    | zero => rfl
    | succ i => exact ih i

/-- C7: after `AiciVmHelper::new`, the `allowed_tokens` bitmap has length
exactly `vocab_size + 1` and every bit is false — the all-disallowed
default state. -/
theorem aici_vm_helper_new_bitmap (vs : Nat) :
    (AiciVmHelper.new vs).allowed_tokens.bits.length = vs + 1 ∧
    ∀ i, (AiciVmHelper.new vs).allowed_tokens.bits.getD i false = false := by
  constructor
  · simp [AiciVmHelper.new, SimpleVob.resize, SimpleVob.new]
  · intro i
    show (List.replicate (vs + 1) false).getD i false = false
    exact getD_replicate (vs + 1) i false

/-- C2: a conditional write with expected version `v` is applied with a
`WriteVar` response carrying the incremented version exactly when the
stored version equals `v`; on any mismatch (including a missing variable)
the store is unchanged and the response is the current read result. -/
theorem write_var_cas (st : VarStore) (name : String) (value : List Byte)
    (op : StorageOp) (v : Nat) :
    (∀ oldv, lookupVar st name = some (v, oldv) →
      (writeVar st name value op (some v)).2 = .WriteVar (v + 1) ∧
      lookupVar (writeVar st name value op (some v)).1 name =
        some (v + 1, applyOpVal op (some oldv) value)) ∧
    ((lookupVar st name).map (fun q => q.1) ≠ some v →
      (writeVar st name value op (some v)).1 = st ∧
      (writeVar st name value op (some v)).2 = readVar st name) ∧
    ((∃ w, (writeVar st name value op (some v)).2 = .WriteVar w) ↔
      (lookupVar st name).map (fun q => q.1) = some v) := by
  cases hcur : lookupVar st name with
  | none =>
    refine ⟨?_, ?_, ?_⟩
    · intro oldv h
      cases h
    · intro _
      constructor
      · simp [writeVar, hcur]
      · simp [writeVar, readVar, hcur]
    · constructor
      · intro ⟨w, hw⟩
        simp [writeVar, readVar, hcur] at hw
      · intro h
        simp at h
  | some q =>
    obtain ⟨ver, oldval⟩ := q
    by_cases hv : ver = v
    · subst hv
      refine ⟨?_, ?_, ?_⟩
      · intro oldv h
        cases h
        constructor
        · simp [writeVar, hcur]
        · simp [writeVar, hcur, updateVar, lookupVar]
      · intro hne
        simp at hne
      · constructor
        · intro _
          rfl
        · intro _
          exact ⟨ver + 1, by simp [writeVar, hcur]⟩
    · refine ⟨?_, ?_, ?_⟩
      · intro oldv h
        cases h
        exact absurd rfl hv
      · intro _
        constructor
        · simp [writeVar, hcur, hv]
        · simp [writeVar, readVar, hcur, hv]
      · constructor
        · intro ⟨w, hw⟩
          simp [writeVar, readVar, hcur, hv] at hw
        · intro h
          simp at h
          exact absurd h hv

/-- Witness for C2: the CAS-idempotence scenario of §8 — with `"ctr"` at
version 2, a conditional write expecting version 1 leaves the store
unchanged and answers with the current read result. -/
theorem write_var_cas_witness :
    (writeVar [("ctr", 2, [(50 : Byte)])] "ctr" [(50 : Byte)] .Set
        (some 1)).1 = [("ctr", 2, [(50 : Byte)])] ∧
    (writeVar [("ctr", 2, [(50 : Byte)])] "ctr" [(50 : Byte)] .Set
        (some 1)).2 = readVar [("ctr", 2, [(50 : Byte)])] "ctr" := by
  have h := write_var_cas [("ctr", 2, [(50 : Byte)])] "ctr" [(50 : Byte)]
    .Set 1
  exact h.2.1 (by decide)

/-- C3: environment construction fails at startup whenever the stop-token
id is not a valid index into the vocabulary it attempts to construct. -/
theorem tiktoken_new_rejects_eos_out_of_range (tokens0 : List (List Byte))
    (config : TikTokenConfig)
    (heos : finalVocabSize tokens0 config ≤ config.eos_token) :
    isErrE (tikTokenEnvNew tokens0 config) = true := by
  cases hov : config.vocab_size_override with
  | none =>
    simp only [finalVocabSize, hov] at heos
    simp only [tikTokenEnvNew, hov]
    rw [if_neg (by omega)]
    rfl
  | some v =>
    simp only [finalVocabSize, hov] at heos
    simp only [tikTokenEnvNew, hov]
    by_cases hlt : v <
        (if tokens0.length ≤ maxSpecId config.special_tokens then
          maxSpecId config.special_tokens + 1 else tokens0.length)
    · rw [if_pos hlt]
      rfl
    · rw [if_neg hlt, if_neg (by omega)]
      rfl

/-- Witness for C3: a one-entry base vocabulary, no special tokens, and
stop token 5 — construction returns an error. -/
theorem tiktoken_new_rejects_eos_witness :
    isErrE (tikTokenEnvNew [[(97 : Byte)]] ⟨5, none, []⟩) = true :=
  tiktoken_new_rejects_eos_out_of_range [[(97 : Byte)]] ⟨5, none, []⟩
    (by decide)

theorem getD_set_ne (l : List α) (i j : Nat) (v d : α) (h : j ≠ i) :
    (l.set j v).getD i d = l.getD i d := by
  simp [List.getD, List.getElem?_set_ne h]

theorem getD_set_self (l : List α) (j : Nat) (v d : α) (h : j < l.length) :
    (l.set j v).getD j d = v := by
  simp [List.getD, List.getElem?_set_eq_of_lt v h]

theorem length_listResize (l : List α) (n : Nat) (x : α) :
    (listResize l n x).length = n := by
  rw [listResize]
  by_cases h : l.length ≤ n
  · rw [if_pos h]
    simp
    omega
  · rw [if_neg h]
    simp
    omega

theorem getD_listResize_pad (l : List α) (n i : Nat) (x : α)
    (hi : l.length ≤ i) : (listResize l n x).getD i x = x := by
  rw [listResize]
  by_cases h : l.length ≤ n
  · rw [if_pos h, List.getD_append_right l _ x i hi, getD_replicate]
  · rw [if_neg h]
    apply List.getD_eq_default
    rw [List.length_take]
    omega

theorem length_installSpecials (l : List (List Byte × Nat))
    (ts : List (List Byte)) : (installSpecials l ts).length = ts.length := by
  induction l generalizing ts with
  | nil => rfl
  | cons p rest ih => rw [installSpecials, ih, List.length_set]

theorem getD_installSpecials_not_mem (l : List (List Byte × Nat))
    (ts : List (List Byte)) (i : Nat) (d : List Byte)
    (hi : i ∉ l.map (fun p => p.2)) :
    (installSpecials l ts).getD i d = ts.getD i d := by
  induction l generalizing ts with
  | nil => rfl
  | cons p rest ih =>
    simp only [List.map_cons, List.mem_cons, not_or] at hi
    obtain ⟨h1, h2⟩ := hi
    rw [installSpecials, ih _ h2, getD_set_ne _ _ _ _ _ (fun h => h1 h.symm)]

theorem getD_installSpecials_mem (l : List (List Byte × Nat))
    (ts : List (List Byte)) (p : List Byte × Nat)
    (hnd : (l.map (fun q => q.2)).Nodup) (hp : p ∈ l)
    (hlen : p.2 < ts.length) :
    (installSpecials l ts).getD p.2 [] = ffByte :: p.1 := by
  induction l generalizing ts with
  | nil => cases hp
  | cons q rest ih =>
    simp only [List.map_cons, List.nodup_cons] at hnd
    obtain ⟨hq, hnd'⟩ := hnd
    rw [installSpecials]
    rcases List.mem_cons.mp hp with hpq | hpr
    · subst hpq
      rw [getD_installSpecials_not_mem rest _ p.2 [] hq]
      exact getD_set_self ts p.2 _ [] hlen
    · exact ih (ts.set q.2 (ffByte :: q.1)) hnd' hpr
        (by rw [List.length_set]; exact hlen)

theorem foldl_max_init_le (l : List Nat) (a : Nat) : a ≤ l.foldl Nat.max a := by
  induction l generalizing a with
  | nil => exact le_rfl
  | cons x xs ih => exact le_trans (Nat.le_max_left a x) (ih (Nat.max a x))

theorem mem_le_foldl_max (l : List Nat) :
    ∀ (a x : Nat), x ∈ l → x ≤ l.foldl Nat.max a := by
  induction l with
  | nil =>
    intro a x hx
    cases hx
  | cons y ys ih =>
    intro a x hx
    rw [List.foldl_cons]
    rcases List.mem_cons.mp hx with h | h
    · subst h
      exact le_trans (Nat.le_max_right a x) (foldl_max_init_le ys (Nat.max a x))
    · exact ih (Nat.max a y) x h

theorem mem_le_maxSpecId (l : List (List Byte × Nat)) (p : List Byte × Nat)
    (hp : p ∈ l) : p.2 ≤ maxSpecId l :=
  mem_le_foldl_max _ 0 p.2 (List.mem_map_of_mem (fun q => q.2) hp)

/-- C9: when the largest registered special-token id reaches past the base
vocabulary, construction (with no size override and an in-range stop
token) succeeds, the vocabulary is extended to `max_id + 1` entries, all
newly added non-special slots are empty, and every special token's slot
holds the reserved marker byte followed by the name's bytes. -/
theorem tiktoken_new_extends_vocab (tokens0 : List (List Byte))
    (config : TikTokenConfig) (hov : config.vocab_size_override = none)
    (hmax : tokens0.length ≤ maxSpecId config.special_tokens)
    (heos : config.eos_token < maxSpecId config.special_tokens + 1)
    (hnd : (config.special_tokens.map (fun p => p.2)).Nodup) :
    isOkE (tikTokenEnvNew tokens0 config) = true ∧
    (envVocab (tikTokenEnvNew tokens0 config)).length =
      maxSpecId config.special_tokens + 1 ∧
    (∀ i, tokens0.length ≤ i → i < maxSpecId config.special_tokens + 1 →
      i ∉ config.special_tokens.map (fun p => p.2) →
      (envVocab (tikTokenEnvNew tokens0 config)).getD i [] = []) ∧
    (∀ p ∈ config.special_tokens,
      (envVocab (tikTokenEnvNew tokens0 config)).getD p.2 [] =
        ffByte :: p.1) := by
  have hnew : tikTokenEnvNew tokens0 config = Except.ok
      ⟨installSpecials config.special_tokens
        (listResize tokens0 (maxSpecId config.special_tokens + 1) []),
       config.eos_token, config.special_tokens⟩ := by
    simp only [tikTokenEnvNew, hov]
    rw [if_pos hmax, if_pos heos]
  rw [hnew]
  simp only [isOkE, envVocab]
  refine ⟨trivial, ?_, ?_, ?_⟩
  · rw [length_installSpecials, length_listResize]
  · intro i hi _ hmem
    rw [getD_installSpecials_not_mem _ _ _ _ hmem]
    exact getD_listResize_pad tokens0 _ i [] hi
  · intro p hp
    apply getD_installSpecials_mem _ _ p hnd hp
    rw [length_listResize]
    exact Nat.lt_succ_of_le (mem_le_maxSpecId _ p hp)

/-- Witness for C9: base vocabulary of 2 entries, special token `<x>` with
id 5 — construction succeeds with 6 vocabulary entries, slot 3 empty and
slot 5 holding the marker byte followed by the name. -/
theorem tiktoken_new_extends_vocab_witness :
    isOkE (tikTokenEnvNew [[(97 : Byte)], [(98 : Byte)]]
        ⟨3, none, [([(60 : Byte), (120 : Byte), (62 : Byte)], 5)]⟩) = true ∧
    (envVocab (tikTokenEnvNew [[(97 : Byte)], [(98 : Byte)]]
        ⟨3, none, [([(60 : Byte), (120 : Byte), (62 : Byte)], 5)]⟩)).length =
      6 ∧
    (envVocab (tikTokenEnvNew [[(97 : Byte)], [(98 : Byte)]]
        ⟨3, none, [([(60 : Byte), (120 : Byte), (62 : Byte)], 5)]⟩)).getD 3
      [] = [] ∧
    (envVocab (tikTokenEnvNew [[(97 : Byte)], [(98 : Byte)]]
        ⟨3, none, [([(60 : Byte), (120 : Byte), (62 : Byte)], 5)]⟩)).getD 5
      [] = ffByte :: [(60 : Byte), (120 : Byte), (62 : Byte)] := by
  have h := tiktoken_new_extends_vocab [[(97 : Byte)], [(98 : Byte)]]
    ⟨3, none, [([(60 : Byte), (120 : Byte), (62 : Byte)], 5)]⟩ rfl
    (by decide) (by decide) (by decide)
  exact ⟨h.1, h.2.1, h.2.2.1 3 (by decide) (by decide) (by decide),
    h.2.2.2 ([(60 : Byte), (120 : Byte), (62 : Byte)], 5) (by decide)⟩

end Toktrie
